import Mathlib

/-!
# Verification of the agenteer-review orchestration core

A shallow embedding, in Lean 4, of the multi-agent review orchestration code
of the `agenteer-review` repository, together with theorems settling the
frozen claims about its specification.

Conventions of the embedding:
* Python strings are modelled as Lean `String` / `List Char`; `str.strip()`
  is modelled over the ASCII whitespace characters it removes.
* `async` coroutines are modelled as total functions returning
  `AgentOutcome` (`ok` for a normal completion, `exn` for a raised
  exception); `asyncio.gather` over them is modelled deterministically in
  list order.
* Python `dict`s built by comprehensions are modelled as association lists
  with Python's insert-or-update semantics (`pyDict`).
* Network calls are counted explicitly where a claim is about the number of
  calls made.
-/

namespace AgenteerReview

/-! ## Python string primitives -/

/-- The ASCII whitespace characters removed by Python `str.strip()`. -/
def pyWS (c : Char) : Bool :=
  c == ' ' || c == '\t' || c == '\n' || c == '\r' || c == '\x0b' || c == '\x0c'

/-- Python `str.lstrip()` on a character list. -/
def ltrim (l : List Char) : List Char := l.dropWhile pyWS

/-- Python `str.rstrip()` on a character list. -/
def rtrim (l : List Char) : List Char := (l.reverse.dropWhile pyWS).reverse

/-- Python `str.strip()` on a character list. -/
def pyStrip (l : List Char) : List Char := rtrim (ltrim l)

/-- Python `str.strip()` on strings. -/
def pyStripStr (s : String) : String := String.mk (pyStrip s.data)

/-- Does `pat` occur at the very start of `l`? -/
def hasPre : List Char → List Char → Bool
  | [], _ => true
  | _ :: _, [] => false
  | p :: ps, c :: cs => p == c && hasPre ps cs

/-- Does `pat` occur anywhere in `l` as a contiguous run? -/
def hasSub (pat : List Char) : List Char → Bool
  | [] => hasPre pat []
  | c :: t => hasPre pat (c :: t) || hasSub pat t

/-- The opening reasoning-trace marker `<think>`. -/
def openTag : List Char := ['<', 't', 'h', 'i', 'n', 'k', '>']

/-- The closing reasoning-trace marker `</think>`. -/
def closeTag : List Char := ['<', '/', 't', 'h', 'i', 'n', 'k', '>']

theorem openTag_eq_data : openTag = "<think>".data := by decide

theorem closeTag_eq_data : closeTag = "</think>".data := by decide

/-- Scan for the first occurrence of `</think>` and return the remainder
after it, or `none` when the closing marker does not occur.  This is the
lookahead done by the non-greedy `.*?</think>` part of the regex. -/
def chopClose : List Char → Option (List Char)
  | [] => none
  | c :: t => if hasPre closeTag (c :: t) then some ((c :: t).drop 8) else chopClose t

/-- Fuel-indexed scan implementing
`re.sub(r'<think>.*?</think>', '', text, flags=re.DOTALL)`: at each
position, if `<think>` starts here and a `</think>` occurs later, the
shortest such span is deleted and scanning resumes after it; otherwise the
character is kept.  Any `fuel ≥ length` yields the same result (see
`scrubGo_fuel`); `scrub` instantiates `fuel` with the length. -/
def scrubGo : Nat → List Char → List Char
  | 0, l => l
  | _ + 1, [] => []
  | fuel + 1, c :: t =>
    if hasPre openTag (c :: t) then
      match chopClose ((c :: t).drop 7) with
      | some rest => scrubGo fuel rest
      | none => c :: scrubGo fuel t
    else
      c :: scrubGo fuel t

/-- The regex substitution pass of `remove_think_blocks`. -/
def scrub (l : List Char) : List Char := scrubGo l.length l

/-- `remove_think_blocks` from `src/src/core_v2/agentlib/orchestrator.py`,
`src/src/core/orchestrator.py`, `src/src/core/base_agent.py` and
`src/src/core_v2/agentlib/base_agent.py` (all four copies are identical):
`re.sub(r'<think>.*?</think>', '', text, flags=re.DOTALL).strip()`. -/
def remove_think_blocks (s : String) : String := String.mk (pyStrip (scrub s.data))

/-! ## Lemmas about the string primitives -/

theorem chopClose_length {l r : List Char} (h : chopClose l = some r) :
    r.length ≤ l.length := by
  induction l with
  | nil => simp [chopClose] at h
  | cons c t ih =>
    by_cases hc : hasPre closeTag (c :: t) = true
    · simp only [chopClose, hc, if_true, Option.some.injEq] at h
      subst h
      simp only [List.length_drop, List.length_cons]
      omega
    · simp only [chopClose, hc, if_false, Bool.false_eq_true] at h
      exact Nat.le_succ_of_le (ih h)

theorem scrubGo_fuel : ∀ (f g : Nat) (l : List Char),
    l.length ≤ f → l.length ≤ g → scrubGo f l = scrubGo g l := by
  intro f
  induction f with
  | zero =>
    intro g l hf _
    have : l = [] := List.length_eq_zero.mp (Nat.le_zero.mp hf)
    subst this
    cases g <;> rfl
  | succ f ih =>
    intro g l hf hg
    cases l with
    | nil => cases g <;> rfl
    | cons c t =>
      cases g with
      | zero => exact absurd hg (by simp)
      | succ g =>
        simp only [scrubGo]
        by_cases ho : hasPre openTag (c :: t) = true
        · simp only [ho, if_true]
          cases hcc : chopClose ((c :: t).drop 7) with
          | some rest =>
            have hr : rest.length ≤ t.length := by
              have h1 := chopClose_length hcc
              have h2 : ((c :: t).drop 7).length ≤ t.length := by
                simp only [List.length_drop, List.length_cons]
                omega
              exact Nat.le_trans h1 h2
            exact ih g rest (Nat.le_trans hr (Nat.le_of_succ_le_succ hf))
              (Nat.le_trans hr (Nat.le_of_succ_le_succ hg))
          | none =>
            have := ih g t (Nat.le_of_succ_le_succ hf) (Nat.le_of_succ_le_succ hg)
            simp [this]
        · simp only [ho, if_false, Bool.false_eq_true]
          have := ih g t (Nat.le_of_succ_le_succ hf) (Nat.le_of_succ_le_succ hg)
          simp [this]

theorem scrub_nil : scrub [] = [] := rfl

theorem scrub_cons_neg {c : Char} {t : List Char}
    (h : hasPre openTag (c :: t) = false) : scrub (c :: t) = c :: scrub t := by
  simp [scrub, scrubGo, h]

theorem scrub_cons_some {c : Char} {t rest : List Char}
    (h1 : hasPre openTag (c :: t) = true)
    (h2 : chopClose ((c :: t).drop 7) = some rest) :
    scrub (c :: t) = scrub rest := by
  have hr : rest.length ≤ t.length := by
    have ha := chopClose_length h2
    have hb : ((c :: t).drop 7).length ≤ t.length := by
      simp only [List.length_drop, List.length_cons]
      omega
    exact Nat.le_trans ha hb
  show scrubGo (t.length + 1) (c :: t) = scrub rest
  simp only [scrubGo, h1, if_true, h2]
  exact scrubGo_fuel t.length rest.length rest hr (Nat.le_refl _)

theorem hasPre_self_append (p r : List Char) : hasPre p (p ++ r) = true := by
  induction p with
  | nil => rfl
  | cons c t ih => simp [hasPre, ih]

theorem hasPre_openTag_false {c : Char} (t : List Char) (h : c ≠ '<') :
    hasPre openTag (c :: t) = false := by
  have hb : (('<' : Char) == c) = false := beq_eq_false_iff_ne.mpr (Ne.symm h)
  simp [openTag, hasPre, hb]

theorem hasPre_closeTag_false {c : Char} (t : List Char) (h : c ≠ '<') :
    hasPre closeTag (c :: t) = false := by
  have hb : (('<' : Char) == c) = false := beq_eq_false_iff_ne.mpr (Ne.symm h)
  simp [closeTag, hasPre, hb]

theorem scrub_append_no_lt {a : List Char} (rest : List Char)
    (h : ∀ ch ∈ a, ch ≠ '<') : scrub (a ++ rest) = a ++ scrub rest := by
  induction a with
  | nil => simp
  | cons c t ih =>
    have hc : c ≠ '<' := h c (by simp)
    have ht : ∀ ch ∈ t, ch ≠ '<' := fun ch hm => h ch (by simp [hm])
    rw [List.cons_append, scrub_cons_neg (hasPre_openTag_false _ hc), ih ht]
    rfl

theorem chopClose_through {x : List Char} (rest : List Char)
    (h : ∀ ch ∈ x, ch ≠ '<') : chopClose (x ++ closeTag ++ rest) = some rest := by
  induction x with
  | nil =>
    show chopClose (closeTag ++ rest) = some rest
    have : closeTag ++ rest = '<' :: (['/', 't', 'h', 'i', 'n', 'k', '>'] ++ rest) := rfl
    rw [this]
    simp only [chopClose]
    rw [← this, hasPre_self_append]
    simp only [if_true]
    rw [this]
    rfl
  | cons c t ih =>
    have hc : c ≠ '<' := h c (by simp)
    have ht : ∀ ch ∈ t, ch ≠ '<' := fun ch hm => h ch (by simp [hm])
    show chopClose (c :: (t ++ closeTag ++ rest)) = some rest
    rw [chopClose, hasPre_closeTag_false _ hc]
    simp only [if_false, Bool.false_eq_true]
    exact ih ht

theorem scrub_span {x : List Char} (rest : List Char)
    (h : ∀ ch ∈ x, ch ≠ '<') :
    scrub (openTag ++ (x ++ (closeTag ++ rest))) = scrub rest := by
  have hshape : openTag ++ (x ++ (closeTag ++ rest)) =
      '<' :: (['t', 'h', 'i', 'n', 'k', '>'] ++ (x ++ (closeTag ++ rest))) := rfl
  have hopen : hasPre openTag (openTag ++ (x ++ (closeTag ++ rest))) = true :=
    hasPre_self_append _ _
  have hdrop : (openTag ++ (x ++ (closeTag ++ rest))).drop 7 = x ++ closeTag ++ rest := by
    simp [openTag, List.append_assoc]
  rw [hshape]
  refine scrub_cons_some ?_ ?_
  · rw [← hshape]; exact hopen
  · rw [show ('<' :: (['t', 'h', 'i', 'n', 'k', '>'] ++ (x ++ (closeTag ++ rest)))).drop 7
        = x ++ closeTag ++ rest by simp [List.append_assoc]]
    exact chopClose_through rest h

theorem hasSub_false_cons {pat : List Char} {c : Char} {t : List Char}
    (h : hasSub pat (c :: t) = false) :
    hasPre pat (c :: t) = false ∧ hasSub pat t = false := by
  simpa [hasSub, Bool.or_eq_false_iff] using h

theorem scrub_no_open {l : List Char} (h : hasSub openTag l = false) :
    scrub l = l := by
  induction l with
  | nil => rfl
  | cons c t ih =>
    obtain ⟨h1, h2⟩ := hasSub_false_cons h
    rw [scrub_cons_neg h1, ih h2]

/-! strip lemmas -/

theorem dropWhile_idem (p : Char → Bool) (l : List Char) :
    (l.dropWhile p).dropWhile p = l.dropWhile p := by
  induction l with
  | nil => rfl
  | cons c t ih =>
    by_cases hp : p c = true
    · simp [List.dropWhile_cons, hp, ih]
    · simp [List.dropWhile_cons, hp]

theorem dropWhile_head_false {p : Char → Bool} {l t : List Char} {c : Char}
    (h : l.dropWhile p = c :: t) : p c = false := by
  induction l with
  | nil => simp at h
  | cons x xs ih =>
    by_cases hp : p x = true
    · rw [List.dropWhile_cons, if_pos hp] at h
      exact ih h
    · rw [List.dropWhile_cons, if_neg hp] at h
      cases h
      exact Bool.of_not_eq_true hp

theorem rtrim_decomp (z : List Char) :
    z = rtrim z ++ (z.reverse.takeWhile pyWS).reverse := by
  have h := @List.takeWhile_append_dropWhile Char pyWS z.reverse
  calc z = z.reverse.reverse := (List.reverse_reverse z).symm
    _ = (z.reverse.takeWhile pyWS ++ z.reverse.dropWhile pyWS).reverse := by rw [h]
    _ = rtrim z ++ (z.reverse.takeWhile pyWS).reverse := by
        rw [List.reverse_append]; rfl

theorem rtrim_idem (z : List Char) : rtrim (rtrim z) = rtrim z := by
  unfold rtrim
  rw [List.reverse_reverse, dropWhile_idem]

theorem ltrim_rtrim_ltrim (l : List Char) :
    ltrim (rtrim (ltrim l)) = rtrim (ltrim l) := by
  unfold ltrim
  cases hz : rtrim (l.dropWhile pyWS) with
  | nil => rfl
  | cons c t =>
    have hdec := rtrim_decomp (l.dropWhile pyWS)
    rw [hz, List.cons_append] at hdec
    have hc : pyWS c = false := dropWhile_head_false hdec
    rw [List.dropWhile_cons, if_neg (by simp [hc])]

theorem pyStrip_idem (l : List Char) : pyStrip (pyStrip l) = pyStrip l := by
  show rtrim (ltrim (rtrim (ltrim l))) = rtrim (ltrim l)
  rw [ltrim_rtrim_ltrim, rtrim_idem]

theorem hasPre_of_append {pat m : List Char} (w : List Char)
    (h : hasPre pat m = true) : hasPre pat (m ++ w) = true := by
  induction pat generalizing m with
  | nil => rfl
  | cons p ps ih =>
    cases m with
    | nil => simp [hasPre] at h
    | cons c m' =>
      simp only [hasPre, Bool.and_eq_true] at h
      simp only [List.cons_append, hasPre, Bool.and_eq_true]
      exact ⟨h.1, ih h.2⟩

theorem hasSub_append_left {pat m : List Char} (w : List Char)
    (h : hasSub pat m = true) : hasSub pat (m ++ w) = true := by
  induction m with
  | nil =>
    have hp : hasPre pat [] = true := h
    have : pat = [] := by cases pat with
      | nil => rfl
      | cons p ps => simp [hasPre] at hp
    subst this
    cases w <;> simp [hasSub, hasPre]
  | cons c m' ih =>
    simp only [hasSub, Bool.or_eq_true] at h
    rcases h with h | h
    · have := @hasPre_of_append pat (c :: m') w h
      simp only [List.cons_append] at this ⊢
      simp [hasSub, this]
    · simp only [List.cons_append, hasSub, Bool.or_eq_true]
      exact Or.inr (ih h)

theorem hasSub_append_right {pat w : List Char} (m : List Char)
    (h : hasSub pat w = true) : hasSub pat (m ++ w) = true := by
  induction m with
  | nil => simpa using h
  | cons c m' ih =>
    simp only [List.cons_append, hasSub, Bool.or_eq_true]
    exact Or.inr ih

theorem hasSub_pyStrip {pat l : List Char}
    (h : hasSub pat (pyStrip l) = true) : hasSub pat l = true := by
  have h1 : hasSub pat (ltrim l) = true := by
    have hdec := rtrim_decomp (ltrim l)
    have hstep := hasSub_append_left ((ltrim l).reverse.takeWhile pyWS).reverse h
    rw [hdec]
    exact hstep
  have h2 := @hasSub_append_right pat (ltrim l) (l.takeWhile pyWS) h1
  simp only [ltrim] at h2
  rw [List.takeWhile_append_dropWhile] at h2
  exact h2

/-! ## Coroutine outcomes and gather semantics -/

/-- Outcome of awaiting one coroutine: either its value, or the message of
the exception it raised. -/
inductive AgentOutcome where
  | ok (text : String)
  | exn (msg : String)
deriving DecidableEq

/-- Did the coroutine complete normally? -/
def AgentOutcome.isOkB : AgentOutcome → Bool
  | .ok _ => true
  | .exn _ => false

/-- Did the coroutine raise? -/
def AgentOutcome.isExnB : AgentOutcome → Bool
  | .ok _ => false
  | .exn _ => true

/-- The value of a completed coroutine (junk value on the raised case,
which callers rule out). -/
def AgentOutcome.okD : AgentOutcome → String
  | .ok t => t
  | .exn m => m

/-- `asyncio.gather(*tasks)` with the default `return_exceptions=False`:
if any task raises, the whole gather raises (modelled deterministically as
the first raising task in list order); otherwise all values are returned in
order. -/
def gatherEx : List AgentOutcome → Except String (List String)
  | [] => .ok []
  | .exn m :: _ => .error m
  | .ok t :: rest =>
    match gatherEx rest with
    | .error m => .error m
    | .ok ts => .ok (t :: ts)

/-- Python `dict` insert-or-update on an association list (first-insert
position is kept, value replaced). -/
def pyInsert {α : Type} (d : List (String × α)) (k : String) (v : α) :
    List (String × α) :=
  if d.any (fun p => p.1 == k) then
    d.map (fun p => if p.1 == k then (k, v) else p)
  else d ++ [(k, v)]

/-- A Python `dict` built by inserting the pairs of `l` left to right
(the semantics of a dict comprehension over `l`). -/
def pyDict {α : Type} (l : List (String × α)) : List (String × α) :=
  l.foldl (fun d p => pyInsert d p.1 p.2) []

/-! ## The aiohttp/openai agent variants
(`src/src/core/base_agent.py`, `src/src/core_v2/agentlib/base_agent.py`,
`src/src/core/orchestrator.py`, `src/src/core_v2/agentlib/orchestrator.py`) -/

/-- An agent of the `BaseAgent` kind: a name, a mutable role prompt, and a
behavior modelling the chat-completions POST: given the current prompt and
the paper text it yields the raw completion content, or raises. -/
structure NetAgent where
  name : String
  prompt : String
  behavior : String → String → AgentOutcome

/-- `BaseAgent.run(paper)`: one network call with the agent's current
prompt; the raw content is passed through `remove_think_blocks`. -/
def agentRun (a : NetAgent) (paper : String) : AgentOutcome :=
  match a.behavior a.prompt paper with
  | .ok raw => .ok (remove_think_blocks raw)
  | .exn m => .exn m

/-- `Orchestrator.run_agents` of `src/src/core/orchestrator.py` and
`src/src/core_v2/agentlib/orchestrator.py`:
`tasks = {agent.name: agent.run(paper) for agent in self.agents}` followed by
`asyncio.gather(*tasks.values())` (no `return_exceptions`), then
`dict(zip(tasks.keys(), responses))`.  An exception raised by any agent
propagates to the caller. -/
def run_agents (agents : List NetAgent) (paper : String) :
    Except String (List (String × String)) :=
  let tasks := pyDict (agents.map fun a => (a.name, agentRun a paper))
  match gatherEx (tasks.map (·.2)) with
  | .error m => .error m
  | .ok rs => .ok (List.zip (tasks.map (·.1)) rs)

/-- Result record returned by `Orchestrator.run` of
`src/src/core_v2/agentlib/orchestrator.py` (its `agent_results` field is
literally `None`). -/
structure RunResultV2 where
  agent_results : Option (List (String × String))
  final_review : String
  processing_status : String

/-- `Orchestrator.run(paper, include_paper)` of
`src/src/core_v2/agentlib/orchestrator.py`:  runs `run_agents` (exceptions
propagate), builds the synthesis user prompt by iterating the agent list,
makes one more chat-completions call (`llm`), and returns a
`processing_status = "success"` record.  The second component counts the
network calls attempted (one per task in the dict, plus the synthesis
call when reached). -/
def orchRun (agents : List NetAgent) (llm : String → AgentOutcome)
    (paper : String) (includePaper : Bool) : Except String RunResultV2 × Nat :=
  let tasks := pyDict (agents.map fun a => (a.name, agentRun a paper))
  let agentCalls := tasks.length
  match run_agents agents paper with
  | .error m => (.error m, agentCalls)
  | .ok responses =>
    let prompt := (if includePaper then "\n\nPaper:\n" ++ paper else "")
      ++ String.join (agents.map fun a =>
           "\n\n" ++ a.name ++ " Response:\n" ++ ((List.lookup a.name responses).getD ""))
    match llm prompt with
    | .ok content =>
      (.ok { agent_results := none
             final_review := remove_think_blocks content
             processing_status := "success" }, agentCalls + 1)
    | .exn m => (.error m, agentCalls + 1)

/-- The note appended to a prompt during refinement
(`CheckedOrchestrator.refine_agents`). -/
def clarNote (m : String) : String :=
  "\n\nNOTE: Please revise your response considering this feedback:\n" ++ m

/-- The prompt-mutation loop of `CheckedOrchestrator.refine_agents`
(`src/src/core/orchestrator.py`):
`for agent in self.agents: agent.prompt += note(clarification[agent.name])`.
On the first agent whose name is absent from `clarification` a `KeyError`
is raised: the agents already visited stay mutated, the rest untouched. -/
def mutateLoop (clar : List (String × String)) :
    List NetAgent → List NetAgent × Option String
  | [] => ([], none)
  | a :: rest =>
    match List.lookup a.name clar with
    | none => (a :: rest, some ("KeyError: " ++ a.name))
    | some m =>
      let step := mutateLoop clar rest
      ({ a with prompt := a.prompt ++ clarNote m } :: step.1, step.2)

/-- `CheckedOrchestrator.refine_agents(paper, clarification)` of
`src/src/core/orchestrator.py` (lines 245-254): saves
`old_prompts = {agent.name: agent.prompt ...}`, appends the clarification
note to EVERY registered agent's prompt, re-runs ALL agents with
`asyncio.gather` (no `return_exceptions`), and only after a successful
gather restores every prompt.  There is no `try/finally`: when the
mutation loop raises `KeyError`, or the gather raises, the prompts are NOT
restored.  The second component is the final state of the agent list. -/
def refineAgents (agents : List NetAgent) (clar : List (String × String))
    (paper : String) : Except String (List (String × String)) × List NetAgent :=
  let old := pyDict (agents.map fun a => (a.name, a.prompt))
  match mutateLoop clar agents with
  | (touched, some err) => (.error err, touched)
  | (mutated, none) =>
    let tasks := pyDict (mutated.map fun a => (a.name, agentRun a paper))
    match gatherEx (tasks.map (·.2)) with
    | .error m => (.error m, mutated)
    | .ok rs =>
      (.ok (List.zip (tasks.map (·.1)) rs),
       mutated.map fun a => { a with prompt := (List.lookup a.name old).getD a.prompt })

/-! ## The ollama variant (`src/core/orchestrator.py`) -/

/-- Metadata fields read by `_build_review_prompt`
(`metadata.get('title'/'page_count'/'author', 'Unknown')`). -/
structure PaperMeta where
  title : String
  page_count : String
  author : String

/-- The fields of a successful `StructureAgent.analyze` dict that the
orchestrator reads. -/
structure StructPayload where
  found_sections : List String
  missing_sections : List String
  structure_quality : String
  completeness : ℚ
  recommendations : List String
deriving DecidableEq

/-- The fields of a successful `SummaryAgent.analyze` dict that the
orchestrator reads.  `compressRate` is `compression_ratio` in the source,
`readability` is `readability_score`. -/
structure SumPayload where
  summary : String
  summary_quality : String
  key_topics : List String
  compressRate : ℚ
  readability : ℚ
deriving DecidableEq

/-- One entry of the `agent_results` mapping of `src/core/orchestrator.py`:
either an error dict `{"error": msg}` (also produced from a caught
exception), or a success dict of one of the two registered agents. -/
inductive AgentDict where
  | errorDict (msg : String)
  | structDict (p : StructPayload)
  | sumDict (p : SumPayload)
deriving DecidableEq

/-- Python's `"error" in results` test on an entry. -/
def AgentDict.hasError : AgentDict → Bool
  | .errorDict _ => true
  | _ => false

/-- A `src/core` agent: `analyze(text, metadata)` returns a result dict or
raises (the `Except.error` case). -/
structure LocalAgent where
  name : String
  analyze : String → PaperMeta → Except String AgentDict

/-- `Orchestrator._run_agents` of `src/core/orchestrator.py` (lines
81-111): one task per registered agent,
`asyncio.gather(*tasks, return_exceptions=True)`, then every exception is
converted to an `{"error": str(e)}` entry; the mapping always has one
entry per agent, in registration order.  (`self.agents` is a dict keyed by
name, so names are unique; the empty-dict early return coincides with the
map on `[]`.) -/
def _run_agents (agents : List LocalAgent) (text : String) (metadata : PaperMeta) :
    List (String × AgentDict) :=
  agents.map fun a =>
    (a.name,
     match a.analyze text metadata with
     | .ok d => d
     | .error e => AgentDict.errorDict e)

/-- Python `str(list_of_str)` rendering, used by the f-strings of
`_build_review_prompt`. -/
def pyListStr (l : List String) : String :=
  "[" ++ String.intercalate ", " (l.map fun s => "'" ++ s ++ "'") ++ "]"

/-- Modelled numeric rendering for Python `f"{x:.2f}"`.  It abstracts
CPython float formatting by rounding the rational to two decimals; no
claim depends on its output. -/
def formatFix2 (q : ℚ) : String :=
  let cents : Int := Int.floor (q * 100 + 1 / 2)
  toString (cents / 100) ++ "." ++
    (if (cents % 100).toNat < 10 then "0" else "") ++ toString (cents % 100).toNat

/-- Modelled numeric rendering for Python `f"{x:.1%}"`.  It abstracts
CPython float formatting by rounding the rational (as a percentage) to one
decimal; no claim depends on its output. -/
def formatPct1 (q : ℚ) : String :=
  let tenths : Int := Int.floor (q * 1000 + 1 / 2)
  toString (tenths / 10) ++ "." ++ toString (tenths % 10).toNat ++ "%"

/-- `Orchestrator._build_review_prompt` of `src/core/orchestrator.py`
(lines 130-161).  For each non-error entry an `ANALYSIS` header is
emitted, with detail lines for the two known agent names.  (A non-error
dict of the wrong shape under a known name would be rendered from `.get`
defaults in Python; that unreachable combination is rendered as the bare
header here.) -/
def buildReviewPrompt (agent_results : List (String × AgentDict))
    (metadata : PaperMeta) : String :=
  let base := ["Please generate a comprehensive review of this academic paper based on the following analysis:",
    "\nPaper metadata:",
    "- Title: " ++ metadata.title,
    "- Pages: " ++ metadata.page_count,
    "- Author: " ++ metadata.author]
  let agentParts := agent_results.flatMap fun p =>
    match p.2 with
    | .errorDict _ => []
    | .structDict sp =>
      if p.1 = "StructureAgent" then
        ["\n" ++ p.1.toUpper ++ " ANALYSIS:",
         "- Found sections: " ++ pyListStr sp.found_sections,
         "- Missing sections: " ++ pyListStr sp.missing_sections,
         "- Structure quality: " ++ sp.structure_quality,
         "- Completeness score: " ++ formatFix2 sp.completeness,
         "- Recommendations: " ++ pyListStr sp.recommendations]
      else ["\n" ++ p.1.toUpper ++ " ANALYSIS:"]
    | .sumDict mp =>
      if p.1 = "SummaryAgent" then
        ["\n" ++ p.1.toUpper ++ " ANALYSIS:",
         "- Summary: " ++ mp.summary,
         "- Summary quality: " ++ mp.summary_quality,
         "- Key topics: " ++ pyListStr mp.key_topics,
         "- Compression ratio: " ++ formatFix2 mp.compressRate,
         "- Readability score: " ++ formatFix2 mp.readability]
      else ["\n" ++ p.1.toUpper ++ " ANALYSIS:"]
  String.intercalate "\n"
    (base ++ agentParts ++ ["\nGenerate a professional academic review."])

/-- The structure section of `_generate_final_review`'s fallback: emitted
when the `"StructureAgent"` entry is present and not an error dict. -/
def fallbackStructParts (agent_results : List (String × AgentDict)) : List String :=
  match List.lookup "StructureAgent" agent_results with
  | some (.structDict sp) =>
    ["## Анализ структуры",
     "**Найденные разделы:** " ++
       (if sp.found_sections.isEmpty then "Не найдены"
        else String.intercalate ", " sp.found_sections),
     "**Отсутствующие разделы:** " ++
       (if sp.missing_sections.isEmpty then "Все основные разделы присутствуют"
        else String.intercalate ", " sp.missing_sections),
     "**Качество структуры:** " ++ sp.structure_quality]
    ++ (if sp.recommendations.isEmpty then []
        else "\n**Рекомендации по структуре:**" ::
          sp.recommendations.map (fun r => "- " ++ r))
  | _ => []

/-- The summary section of `_generate_final_review`'s fallback: emitted
when the `"SummaryAgent"` entry is present and not an error dict. -/
def fallbackSumParts (agent_results : List (String × AgentDict)) : List String :=
  match List.lookup "SummaryAgent" agent_results with
  | some (.sumDict mp) =>
    ["\n## Анализ содержания"]
    ++ (if mp.summary = "" then [] else ["**Резюме статьи:**", mp.summary])
    ++ ["\n**Качество изложения:** " ++ mp.summary_quality,
        "**Ключевые темы:** " ++
          (if mp.key_topics.isEmpty then "Не определены"
           else String.intercalate ", " mp.key_topics),
        "**Сжатие текста:** " ++ formatPct1 mp.compressRate]
  | _ => []

/-- `Orchestrator._generate_fallback_review` of `src/core/orchestrator.py`
(lines 185-236): a review built without any LLM call, with sections for
the two known agents when their entries are present and not errors. -/
def generateFallbackReview (agent_results : List (String × AgentDict)) : String :=
  String.intercalate "\n"
    (["# Автоматическая рецензия статьи\n"]
     ++ fallbackStructParts agent_results ++ fallbackSumParts agent_results ++
     ["\n## Общие выводы",
      "Статья была проанализирована автоматической системой. Для полной оценки рекомендуется дополнительная экспертная проверка."])

/-- The fallback review produced when every agent entry is an error. -/
def fallbackFixed : String :=
  String.intercalate "\n"
    ["# Автоматическая рецензия статьи\n",
     "\n## Общие выводы",
     "Статья была проанализирована автоматической системой. Для полной оценки рекомендуется дополнительная экспертная проверка."]

/-- `Orchestrator._generate_final_review` of `src/core/orchestrator.py`
(lines 113-128): builds the prompt, ALWAYS makes the one `_call_llm`
network call, and only when that call raises falls back to
`_generate_fallback_review`.  The second component counts the LLM calls
made. -/
def generateFinalReview (llm : String → AgentOutcome)
    (agent_results : List (String × AgentDict)) (metadata : PaperMeta) :
    String × Nat :=
  match llm (buildReviewPrompt agent_results metadata) with
  | .ok t => (t, 1)
  | .exn _ => (generateFallbackReview agent_results, 1)

/-- Result record of `Orchestrator.process_paper`. -/
structure RunResult where
  agent_results : List (String × AgentDict)
  final_review : String
  processing_status : String

/-- `Orchestrator.process_paper` of `src/core/orchestrator.py` (lines
40-79): runs `_run_agents` then `_generate_final_review` and returns a
`processing_status = "success"` record.  The surrounding `try/except`
cannot fire: both helpers are total (they catch their own failures), so
the `"error"` branch of the source is unreachable in the model as in the
code.  No input validation is performed.  The second component counts LLM
network calls. -/
def process_paper (agents : List LocalAgent) (llm : String → AgentOutcome)
    (text : String) (metadata : PaperMeta) : RunResult × Nat :=
  let ars := _run_agents agents text metadata
  let fin := generateFinalReview llm ars metadata
  ({ agent_results := ars
     final_review := fin.1
     processing_status := "success" }, fin.2)

/-! ## `truncate_text` (`src/utils/formatters.py`, lines 134-149) -/

/-- `truncate_text(text, max_length=4000)`: unchanged when it fits,
otherwise the first `max_length - 3` characters followed by `"..."`. -/
def truncate_text (text : String) (maxLength : Nat) : String :=
  if text.length ≤ maxLength then text
  else String.mk (text.data.take (maxLength - 3)) ++ "..."

/-! ## `StructureAgent` score (`src/core/agents/structure_agent.py`) -/

/-- The section-detection table `section_patterns` of
`StructureAgent.__init__` (lines 19-60): seven keys, each with its list of
regex pattern strings. -/
def section_patterns : List (String × List String) :=
  [("abstract", ["\\babstract\\b", "\\bаннотация\\b", "\\bрезюме\\b"]),
   ("introduction", ["\\bintroduction\\b", "\\bвведение\\b",
      "\\b1\\.\\s*введение\\b", "\\b1\\.\\s*introduction\\b"]),
   ("methodology", ["\\bmethodology\\b", "\\bmethods?\\b", "\\bметодология\\b",
      "\\bметоды?\\b", "\\b2\\.\\s*методы?\\b"]),
   ("results", ["\\bresults?\\b", "\\bрезультаты?\\b", "\\b3\\.\\s*результаты?\\b"]),
   ("discussion", ["\\bdiscussion\\b", "\\bобсуждение\\b", "\\b4\\.\\s*обсуждение\\b"]),
   ("conclusion", ["\\bconclusion\\b", "\\bзаключение\\b", "\\bвыводы?\\b",
      "\\b5\\.\\s*заключение\\b"]),
   ("references", ["\\breferences?\\b", "\\bbibliography\\b", "\\bлитература\\b",
      "\\bсписок\\s+литературы?\\b"])]

/-- The `expected_sections` list of `StructureAgent.__init__` (lines
13-16): eight entries — both `"methodology"` and `"method"` appear, while
`section_patterns` has no `"method"` key. -/
def expected_sections : List String :=
  ["abstract", "introduction", "methodology", "method",
   "results", "discussion", "conclusion", "references"]

/-- `StructureAgent._find_sections` (lines 102-113), with the regex engine
abstracted as `regexSearch : pattern → text → Bool`: a section key is
collected when any of its patterns matches (the inner `break` after the
first match is `List.any`), and `list(set(...))` removes duplicates.  The
claim settled against this holds for every `regexSearch`. -/
def _find_sections (regexSearch : String → String → Bool) (text : String) :
    List String :=
  ((section_patterns.filter fun p => p.2.any fun pat => regexSearch pat text).map
    (·.1)).dedup

/-- `StructureAgent._calculate_completeness_score` (lines 149-151):
`len(found_sections) / len(self.expected_sections)`. -/
def completeness_score (found_sections : List String) : ℚ :=
  (found_sections.length : ℚ) / (expected_sections.length : ℚ)

/-! ## Helper lemmas about the model -/

theorem lookup_map_self {β γ : Type} (nm : β → String) (g : β → γ) :
    ∀ (l : List β) (a : β), a ∈ l → (l.map nm).Nodup →
      List.lookup (nm a) (l.map fun b => (nm b, g b)) = some (g a) := by
  intro l
  induction l with
  | nil => intro a ha; simp at ha
  | cons b t ih =>
    intro a ha hnd
    simp only [List.map_cons, List.nodup_cons] at hnd
    rcases List.mem_cons.mp ha with rfl | hat
    · simp [List.map_cons, List.lookup]
    · have hne : nm a ≠ nm b := by
        intro hEq
        exact hnd.1 (hEq ▸ List.mem_map_of_mem nm hat)
      have hbeq : (nm a == nm b) = false := beq_eq_false_iff_ne.mpr hne
      simp only [List.map_cons, List.lookup, hbeq]
      exact ih a hat hnd.2

theorem pyInsert_fresh {α : Type} (d : List (String × α)) (k : String) (v : α)
    (h : k ∉ d.map (·.1)) : pyInsert d k v = d ++ [(k, v)] := by
  have hany : d.any (fun p => p.1 == k) = false := by
    simp only [List.any_eq_false]
    intro p hp
    simp only [beq_iff_eq]
    intro hEq
    exact h (hEq ▸ List.mem_map_of_mem (·.1) hp)
  simp [pyInsert, hany]

theorem pyDict_go_eq {α : Type} :
    ∀ (l acc : List (String × α)),
      (acc.map (·.1) ++ l.map (·.1)).Nodup →
      List.foldl (fun d p => pyInsert d p.1 p.2) acc l = acc ++ l := by
  intro l
  induction l with
  | nil => intro acc _; simp
  | cons p t ih =>
    intro acc hnd
    simp only [List.map_cons] at hnd
    have hdisj := (List.nodup_append.mp hnd).2.2
    have hfresh : p.1 ∉ acc.map (·.1) := by
      intro hmem
      exact hdisj hmem (by simp)
    have hrec : ((acc ++ [p]).map (·.1) ++ t.map (·.1)).Nodup := by
      simp only [List.map_append, List.map_cons, List.map_nil, List.append_assoc,
        List.singleton_append, List.nil_append]
      exact hnd
    simp only [List.foldl_cons]
    rw [pyInsert_fresh acc p.1 p.2 hfresh, ih (acc ++ [p]) hrec]
    simp

/-- A dict comprehension over pairs with pairwise-distinct keys is the
association list itself. -/
theorem pyDict_eq_self {α : Type} (l : List (String × α))
    (h : (l.map (·.1)).Nodup) : pyDict l = l := by
  have := pyDict_go_eq l [] (by simpa using h)
  simpa [pyDict] using this

theorem pyInsert_length_ge {α : Type} (d : List (String × α)) (k : String) (v : α) :
    d.length ≤ (pyInsert d k v).length := by
  unfold pyInsert
  split
  · simp
  · simp

theorem pyDict_go_length {α : Type} :
    ∀ (l acc : List (String × α)),
      acc.length ≤ (List.foldl (fun d p => pyInsert d p.1 p.2) acc l).length := by
  intro l
  induction l with
  | nil => intro acc; simp
  | cons p t ih =>
    intro acc
    simp only [List.foldl_cons]
    exact Nat.le_trans (pyInsert_length_ge acc p.1 p.2) (ih _)

theorem pyDict_length_pos {α : Type} (l : List (String × α)) (h : l ≠ []) :
    0 < (pyDict l).length := by
  cases l with
  | nil => exact absurd rfl h
  | cons p t =>
    have h1 : pyInsert ([] : List (String × α)) p.1 p.2 = [(p.1, p.2)] := by
      simp [pyInsert]
    calc 0 < ([(p.1, p.2)] : List (String × α)).length := by simp
      _ ≤ (pyDict (p :: t)).length := by
          simp only [pyDict, List.foldl_cons, h1]
          exact pyDict_go_length t [(p.1, p.2)]

theorem gatherEx_all_ok :
    ∀ (outs : List AgentOutcome), (∀ o ∈ outs, o.isOkB = true) →
      gatherEx outs = .ok (outs.map AgentOutcome.okD) := by
  intro outs
  induction outs with
  | nil => intro _; rfl
  | cons o t ih =>
    intro h
    cases o with
    | exn m =>
      have hm := h (AgentOutcome.exn m) (List.mem_cons_self _ _)
      simp [AgentOutcome.isOkB] at hm
    | ok v =>
      have := ih fun x hx => h x (by simp [hx])
      simp [gatherEx, this, AgentOutcome.okD]

theorem zipMapSame {β γ δ : Type} (f : β → γ) (g : β → δ) :
    ∀ l : List β, (l.map f).zip (l.map g) = l.map fun x => (f x, g x) := by
  intro l
  induction l with
  | nil => rfl
  | cons x t ih => simp [List.zip_cons_cons, ih]

/-- The state of an agent after the refinement mutation loop appended its
clarification note. -/
def mutatedOf (clar : List (String × String)) (a : NetAgent) : NetAgent :=
  { a with prompt := a.prompt ++ clarNote ((List.lookup a.name clar).getD "") }

theorem mutateLoop_found (clar : List (String × String)) :
    ∀ (agents : List NetAgent),
      (∀ a ∈ agents, (List.lookup a.name clar).isSome = true) →
      mutateLoop clar agents = (agents.map (mutatedOf clar), none) := by
  intro agents
  induction agents with
  | nil => intro _; rfl
  | cons a t ih =>
    intro h
    cases hlk : List.lookup a.name clar with
    | none => exact absurd (h a (by simp)) (by simp [hlk])
    | some m =>
      have hrec := ih fun x hx => h x (by simp [hx])
      simp only [mutateLoop, hlk, hrec, List.map_cons]
      refine Prod.ext ?_ rfl
      simp [mutatedOf, hlk]

/-- The success path of `CheckedOrchestrator.refine_agents`: when every
registered agent name is present in the clarification mapping, the names
are pairwise distinct, and every re-run completes, the call returns the
re-run results for EVERY agent (computed with the note appended), and the
agent list ends with all prompts restored. -/
theorem refineAgents_success (agents : List NetAgent)
    (clar : List (String × String)) (paper : String)
    (hnd : (agents.map (·.name)).Nodup)
    (hmem : ∀ a ∈ agents, (List.lookup a.name clar).isSome = true)
    (hok : ∀ a ∈ agents, (agentRun (mutatedOf clar a) paper).isOkB = true) :
    refineAgents agents clar paper =
      (.ok (agents.map fun a => (a.name, (agentRun (mutatedOf clar a) paper).okD)),
       agents) := by
  have hmut := mutateLoop_found clar agents hmem
  have hnames : (agents.map (mutatedOf clar)).map (·.name) = agents.map (·.name) := by
    rw [List.map_map]; rfl
  have hnd' : ((agents.map (mutatedOf clar)).map
      (fun a => (a.name, agentRun a paper)) |>.map (·.1)).Nodup := by
    rw [List.map_map]
    show ((agents.map (mutatedOf clar)).map (·.name)).Nodup
    rw [hnames]; exact hnd
  have htasks : pyDict ((agents.map (mutatedOf clar)).map
      (fun a => (a.name, agentRun a paper)))
      = (agents.map (mutatedOf clar)).map (fun a => (a.name, agentRun a paper)) :=
    pyDict_eq_self _ hnd'
  have hallok : ∀ o ∈ ((agents.map (mutatedOf clar)).map
      (fun a => (a.name, agentRun a paper))).map (·.2), o.isOkB = true := by
    intro o ho
    rw [List.map_map, List.map_map] at ho
    obtain ⟨a, ha, rfl⟩ := List.mem_map.mp ho
    exact hok a ha
  have hgather := gatherEx_all_ok _ hallok
  have hold : pyDict (agents.map fun a => (a.name, a.prompt))
      = agents.map fun a => (a.name, a.prompt) := by
    refine pyDict_eq_self _ ?_
    rw [List.map_map]
    exact hnd
  simp only [refineAgents, hmut, htasks, hgather, hold]
  refine Prod.ext ?_ ?_
  · show Except.ok _ = Except.ok _
    congr 1
    simp only [List.map_map]
    rw [zipMapSame]
    rfl
  · show (agents.map (mutatedOf clar)).map _ = agents
    rw [List.map_map]
    have hpt : ∀ a ∈ agents,
        ((fun b => { b with prompt :=
            (List.lookup b.name (agents.map fun x => (x.name, x.prompt))).getD b.prompt })
          ∘ mutatedOf clar) a = a := by
      intro a ha
      have hl := lookup_map_self (·.name) (·.prompt) agents a ha hnd
      simp only [Function.comp_apply, mutatedOf]
      simp only [hl, Option.getD_some]
    calc (agents.map fun a =>
          ((fun b => { b with prompt :=
              (List.lookup b.name (agents.map fun x => (x.name, x.prompt))).getD b.prompt })
            ∘ mutatedOf clar) a)
        = agents.map id := List.map_congr_left hpt
      _ = agents := List.map_id agents

/-! ## Concrete fixtures for witnesses and counterexamples -/

/-- An agent `A` that always completes with `"ra"`. -/
def agOkA : NetAgent := ⟨"A", "pa", fun _ _ => .ok "ra"⟩

/-- An agent `B` that always completes with `"rb"`. -/
def agOkB : NetAgent := ⟨"B", "pb", fun _ _ => .ok "rb"⟩

/-- An agent `B` whose call always raises. -/
def agBoom : NetAgent := ⟨"B", "pb", fun _ _ => .exn "boom"⟩

/-- An agent `A` whose call always raises. -/
def agBoomA : NetAgent := ⟨"A", "pa", fun _ _ => .exn "boom"⟩

/-- A `src/core`-style agent that succeeds with a structure dict. -/
def locOkA : LocalAgent :=
  ⟨"A", fun _ _ => .ok (.structDict ⟨["abstract"], [], "good", 1 / 8, []⟩)⟩

/-- A `src/core`-style agent whose `analyze` raises. -/
def locErrB : LocalAgent := ⟨"B", fun _ _ => .error "crash"⟩

/-- Plain metadata. -/
def meta0 : PaperMeta := ⟨"Unknown", "Unknown", "Unknown"⟩

/-- A synthesis backend that always answers. -/
def llmOK : String → AgentOutcome := fun _ => .ok "llm says"

/-- A synthesis backend that always raises. -/
def llmDown : String → AgentOutcome := fun _ => .exn "down"

/-- An all-error results mapping. -/
def arsAllErr : List (String × AgentDict) :=
  [("StructureAgent", .errorDict "x"), ("SummaryAgent", .errorDict "y")]

theorem lookup_some_mem {α : Type} {l : List (String × α)} {k : String} {v : α}
    (h : List.lookup k l = some v) : (k, v) ∈ l := by
  induction l with
  | nil => simp [List.lookup] at h
  | cons p t ih =>
    cases p with
    | mk k' v' =>
      by_cases hk : (k == k') = true
      · simp only [List.lookup, hk] at h
        cases h
        have hkk : k = k' := beq_iff_eq.mp hk
        subst hkk
        exact List.mem_cons_self _ _
      · have hk' : (k == k') = false := by simpa using hk
        simp only [List.lookup, hk'] at h
        exact List.mem_cons_of_mem _ (ih h)

theorem str_data_append (s t : String) : (s ++ t).data = s.data ++ t.data := by
  cases s
  cases t
  rfl

/-! ## Claim C4 -/

/-- C4 (corrected, counterexample): the claim says that on an input with
two complete `<think>...</think>` pairs the stripping function returns
exactly the trimmed text after the LAST closing marker, discarding the
text before and between the spans.  On
`"A<think>x</think>B<think>y</think>C"` the code returns `"ABC"`, keeping
the surrounding text `"A"` and `"B"`, not `"C"`. -/
theorem remove_think_blocks_keeps_outside_text :
    remove_think_blocks "A<think>x</think>B<think>y</think>C" = "ABC" ∧
    ("ABC" : String) ≠ "C" := by
  refine ⟨by decide, by decide⟩

/-- C4 (corrected, amended): for an input made of two complete
`<think>...</think>` pairs, `remove_think_blocks` deletes exactly the two
marker spans and returns the trimmed concatenation of the text before,
between and after them — surrounding text is retained, not discarded.
(The hypotheses keep the plain segments free of `'<'`, so no marker can
straddle a segment boundary.) -/
theorem remove_think_blocks_two_spans (a x b y c : String)
    (ha : ∀ ch ∈ a.data, ch ≠ '<') (hx : ∀ ch ∈ x.data, ch ≠ '<')
    (hb : ∀ ch ∈ b.data, ch ≠ '<') (hy : ∀ ch ∈ y.data, ch ≠ '<')
    (hc : ∀ ch ∈ c.data, ch ≠ '<') :
    remove_think_blocks
        (a ++ "<think>" ++ x ++ "</think>" ++ b ++ "<think>" ++ y ++ "</think>" ++ c)
      = pyStripStr (a ++ b ++ c) := by
  have hdata :
      (a ++ "<think>" ++ x ++ "</think>" ++ b ++ "<think>" ++ y ++ "</think>" ++ c).data
        = a.data ++ (openTag ++ (x.data ++ (closeTag ++ (b.data ++
            (openTag ++ (y.data ++ (closeTag ++ c.data))))))) := by
    simp only [str_data_append, List.append_assoc]
    rfl
  have hcc : scrub c.data = c.data := by
    have := scrub_append_no_lt [] hc
    simpa [scrub_nil] using this
  have key : scrub ((a ++ "<think>" ++ x ++ "</think>" ++ b ++ "<think>" ++ y
      ++ "</think>" ++ c).data) = a.data ++ (b.data ++ c.data) := by
    rw [hdata, scrub_append_no_lt _ ha, scrub_span _ hx, scrub_append_no_lt _ hb,
      scrub_span _ hy, hcc]
  show String.mk (pyStrip (scrub _)) = _
  rw [key]
  simp only [pyStripStr, str_data_append, List.append_assoc]

/-- C4 witness: the amended theorem applied at concrete segments. -/
theorem remove_think_blocks_two_spans_witness :
    remove_think_blocks
        ("A" ++ "<think>" ++ "x" ++ "</think>" ++ "B" ++ "<think>" ++ "y"
          ++ "</think>" ++ "C")
      = pyStripStr ("A" ++ "B" ++ "C") :=
  remove_think_blocks_two_spans "A" "x" "B" "y" "C" (by decide) (by decide)
    (by decide) (by decide) (by decide)

/-! ## Claim C5 -/

/-- A string on which span removal splices together a new marker pair:
removing `<think>A</think>` from the middle leaves `<think>B</think>`. -/
def spliceStr : String := "<thi<think>A</think>nk>B</think>"

/-- C5 (corrected, counterexample): `remove_think_blocks` is not
idempotent — on `spliceStr` one application yields `<think>B</think>` and
a second application strips that too; and stripping is not a no-op on
marker-free text, since it trims whitespace. -/
theorem remove_think_blocks_not_idempotent :
    remove_think_blocks (remove_think_blocks spliceStr) ≠ remove_think_blocks spliceStr ∧
    remove_think_blocks " a " ≠ " a " := by
  refine ⟨by decide, by decide⟩

/-- C5 (corrected, amended): on any string that contains no `<think>`
opening marker, `remove_think_blocks` equals plain `strip()`, and applying
it twice equals applying it once.  Unrestricted idempotence fails (the
counterexample splices a new marker pair), and on marker-free text the
function is a no-op only up to whitespace trimming. -/
theorem remove_think_blocks_idempotent_no_marker (s : String)
    (h : hasSub openTag s.data = false) :
    remove_think_blocks (remove_think_blocks s) = remove_think_blocks s ∧
    remove_think_blocks s = pyStripStr s := by
  have h1 : scrub s.data = s.data := scrub_no_open h
  have hrm : remove_think_blocks s = pyStripStr s := by
    simp only [remove_think_blocks, pyStripStr, h1]
  refine ⟨?_, hrm⟩
  rw [hrm]
  have h2 : hasSub openTag (pyStripStr s).data = false := by
    show hasSub openTag (pyStrip s.data) = false
    cases hcase : hasSub openTag (pyStrip s.data) with
    | false => rfl
    | true => exact absurd (hasSub_pyStrip hcase) (by simp [h])
  have h3 : scrub (pyStripStr s).data = (pyStripStr s).data := scrub_no_open h2
  simp only [remove_think_blocks, h3]
  show String.mk (pyStrip (pyStrip s.data)) = String.mk (pyStrip s.data)
  rw [pyStrip_idem]

/-- C5 witness: the amended theorem applied at a marker-free string. -/
theorem remove_think_blocks_idempotent_no_marker_witness :
    remove_think_blocks (remove_think_blocks " hello ") = remove_think_blocks " hello " ∧
    remove_think_blocks " hello " = pyStripStr " hello " :=
  remove_think_blocks_idempotent_no_marker " hello " (by decide)

/-! ## Claim C9 -/

/-- C9 (confirmed): with the default `max_length = 4000`, `truncate_text`
returns `text` unchanged when `len(text) ≤ 4000`; otherwise it returns a
string of length exactly 4000 whose first 3997 characters are the first
3997 characters of `text` and whose last three characters are `"..."`. -/
theorem truncate_text_default_spec (text : String) :
    (text.length ≤ 4000 → truncate_text text 4000 = text) ∧
    (4000 < text.length →
      (truncate_text text 4000).length = 4000 ∧
      (truncate_text text 4000).data.take 3997 = text.data.take 3997 ∧
      (truncate_text text 4000).data.drop 3997 = "...".data) := by
  constructor
  · intro h
    simp [truncate_text, h]
  · intro h
    have hnot : ¬ text.length ≤ 4000 := by omega
    have hdata : (truncate_text text 4000).data = text.data.take 3997 ++ "...".data := by
      simp only [truncate_text, if_neg hnot]
      rw [str_data_append]
    have htklen : (text.data.take 3997).length = 3997 := by
      rw [List.length_take]
      have : 3997 ≤ text.data.length := by
        have : text.length = text.data.length := rfl
        omega
      omega
    refine ⟨?_, ?_, ?_⟩
    · show (truncate_text text 4000).data.length = 4000
      rw [hdata, List.length_append, htklen]
      rfl
    · rw [hdata, List.take_left' htklen]
    · rw [hdata, List.drop_left' htklen]

/-- C9 witness: the theorem applied at a 4001-character string and at a
short string. -/
theorem truncate_text_default_spec_witness :
    (truncate_text (String.mk (List.replicate 4001 'a')) 4000).length = 4000 ∧
    truncate_text "hi" 4000 = "hi" := by
  have hlen : (String.mk (List.replicate 4001 'a')).length = 4001 := by
    show (List.replicate 4001 'a').length = 4001
    rw [List.length_replicate]
  refine ⟨?_, ?_⟩
  · exact ((truncate_text_default_spec (String.mk (List.replicate 4001 'a'))).2
      (by omega)).1
  · exact (truncate_text_default_spec "hi").1 (by decide)

/-! ## Claim C10 -/

/-- C10 (confirmed): for every matcher (abstracting `re.search` over the
pattern table) and every input text, `_find_sections` returns a
duplicate-free subset of the seven `section_patterns` keys, and
`completeness_score` equals `len(found) / 8` (because `expected_sections`
has eight entries, `"methodology"` and `"method"` both appearing while
`section_patterns` has no `"method"` key); hence the score lies in
`[0, 7/8]` and can never equal 1. -/
theorem completeness_score_never_full (regexSearch : String → String → Bool)
    (text : String) :
    (_find_sections regexSearch text).Nodup ∧
    (∀ s ∈ _find_sections regexSearch text, s ∈ section_patterns.map (·.1)) ∧
    completeness_score (_find_sections regexSearch text)
      = ((_find_sections regexSearch text).length : ℚ) / 8 ∧
    0 ≤ completeness_score (_find_sections regexSearch text) ∧
    completeness_score (_find_sections regexSearch text) ≤ 7 / 8 ∧
    completeness_score (_find_sections regexSearch text) ≠ 1 := by
  have hlen7 : (_find_sections regexSearch text).length ≤ 7 := by
    have h1 : (_find_sections regexSearch text).length ≤
        ((section_patterns.filter fun p => p.2.any fun pat => regexSearch pat text).map
          (·.1)).length :=
      (List.dedup_sublist _).length_le
    have h2 : ((section_patterns.filter fun p => p.2.any fun pat => regexSearch pat text).map
        (·.1)).length ≤ section_patterns.length := by
      rw [List.length_map]
      exact List.length_filter_le _ _
    have h3 : section_patterns.length = 7 := rfl
    omega
  have h8 : (expected_sections.length : ℚ) = 8 := by norm_num [expected_sections]
  have hscore : completeness_score (_find_sections regexSearch text)
      = ((_find_sections regexSearch text).length : ℚ) / 8 := by
    rw [completeness_score, h8]
  have hcast : ((_find_sections regexSearch text).length : ℚ) ≤ 7 := by
    exact_mod_cast hlen7
  have hnonneg : (0 : ℚ) ≤ ((_find_sections regexSearch text).length : ℚ) := by positivity
  refine ⟨List.nodup_dedup _, ?_, hscore, ?_, ?_, ?_⟩
  · intro s hs
    obtain ⟨p, hp, rfl⟩ := List.mem_map.mp (List.mem_dedup.mp hs)
    exact List.mem_map_of_mem _ (List.mem_filter.mp hp).1
  · rw [hscore]
    positivity
  · rw [hscore, div_le_div_iff₀ (by norm_num) (by norm_num)]
    nlinarith
  · rw [hscore]
    intro hone
    have : ((_find_sections regexSearch text).length : ℚ) = 8 := by
      field_simp at hone
      linarith
    have : (_find_sections regexSearch text).length = 8 := by exact_mod_cast this
    omega

/-! ## Claim C1 -/

/-- C1 (corrected, counterexample): the claim covers both fan-out
executors, but `run_agents` (the `src/src/core` / `src/src/core_v2`
variant) gathers WITHOUT `return_exceptions=True`: a single raising agent
makes the whole call raise instead of returning a one-entry-per-agent
mapping. -/
theorem run_agents_propagates_exception :
    run_agents [agBoom] "t" = Except.error "boom" := rfl

/-- C1 (corrected, amended): the completeness/no-exception property holds
for `_run_agents` of `src/core/orchestrator.py` (which gathers with
`return_exceptions=True`): for N ≥ 1 registered agents with distinct
names, it returns a mapping with exactly one entry per registered agent
name — the agent's success dict, or a typed `{"error": msg}` record when
the agent raised — and, being total, never propagates an exception.  The
`run_agents` variant instead propagates the first agent exception to its
caller. -/
theorem run_agents_caught_complete (agents : List LocalAgent) (text : String)
    (metadata : PaperMeta) (hnd : (agents.map (·.name)).Nodup)
    (_hne : agents ≠ []) :
    ((_run_agents agents text metadata).map (·.1) = agents.map (·.name)) ∧
    (_run_agents agents text metadata).length = agents.length ∧
    ∀ a ∈ agents,
      List.lookup a.name (_run_agents agents text metadata) =
        some (match a.analyze text metadata with
              | .ok d => d
              | .error e => AgentDict.errorDict e) := by
  refine ⟨?_, ?_, ?_⟩
  · simp only [_run_agents, List.map_map]
    rfl
  · simp [_run_agents]
  · intro a ha
    exact lookup_map_self (·.name)
      (fun b => match b.analyze text metadata with
        | .ok d => d
        | .error e => AgentDict.errorDict e) agents a ha hnd

/-- C1 witness: the amended theorem applied to one succeeding and one
raising agent. -/
theorem run_agents_caught_complete_witness :
    ((_run_agents [locOkA, locErrB] "t" meta0).map (·.1)
      = ([locOkA, locErrB] : List LocalAgent).map (·.name)) ∧
    (_run_agents [locOkA, locErrB] "t" meta0).length
      = ([locOkA, locErrB] : List LocalAgent).length ∧
    ∀ a ∈ ([locOkA, locErrB] : List LocalAgent),
      List.lookup a.name (_run_agents [locOkA, locErrB] "t" meta0) =
        some (match a.analyze "t" meta0 with
              | .ok d => d
              | .error e => AgentDict.errorDict e) :=
  run_agents_caught_complete [locOkA, locErrB] "t" meta0 (by decide)
    (List.cons_ne_nil _ _)

/-! ## Claim C2 -/

/-- C2 (corrected, counterexample): for the `run_agents` variant, one
raising sibling destroys the other agents' entries entirely — the call
raises and no mapping is returned, while the same agents with the failing
one replaced by a succeeding one yield a full mapping including agent
`A`'s entry. -/
theorem run_agents_sibling_result_lost :
    run_agents [agOkA, agBoom] "t" = Except.error "boom" ∧
    run_agents [agOkA, agOkB] "t" = Except.ok [("A", "ra"), ("B", "rb")] :=
  ⟨rfl, rfl⟩

/-- C2 (corrected, amended): failure isolation holds for `_run_agents` of
`src/core/orchestrator.py`: replacing the agent at any one position by any
other agent (in particular, by a failing version of it) leaves every other
agent's entry in the returned mapping unchanged.  For the `run_agents`
variant a raising agent loses the siblings' results altogether. -/
theorem run_agents_caught_isolated (pre post : List LocalAgent)
    (a b : LocalAgent) (text : String) (metadata : PaperMeta) :
    ((_run_agents (pre ++ a :: post) text metadata).take pre.length
      = (_run_agents (pre ++ b :: post) text metadata).take pre.length) ∧
    ((_run_agents (pre ++ a :: post) text metadata).drop (pre.length + 1)
      = (_run_agents (pre ++ b :: post) text metadata).drop (pre.length + 1)) := by
  constructor
  · show (List.map _ (pre ++ a :: post)).take pre.length
        = (List.map _ (pre ++ b :: post)).take pre.length
    rw [List.map_append, List.map_append]
    rw [List.take_left' (by rw [List.length_map]), List.take_left' (by rw [List.length_map])]
  · show (List.map _ (pre ++ a :: post)).drop (pre.length + 1)
        = (List.map _ (pre ++ b :: post)).drop (pre.length + 1)
    rw [List.append_cons pre a post, List.append_cons pre b post]
    simp only [List.map_append]
    rw [List.drop_left' (by simp), List.drop_left' (by simp)]

/-! ## Claim C3 -/

/-- C3 (corrected, counterexample): on the empty (hence whitespace-only)
input, `process_paper` does NOT return an error status and does NOT avoid
the network: it reports `processing_status = "success"` and still makes
its one synthesis LLM call. -/
theorem process_paper_empty_not_error :
    (process_paper [] llmOK "" meta0).1.processing_status ≠ "error" ∧
    (process_paper [] llmOK "" meta0).2 ≠ 0 := by
  refine ⟨by decide, by decide⟩

/-- C3 (corrected, amended): neither orchestrator entry point validates
its input.  On empty `paper_text`, `process_paper` returns
`processing_status = "success"` and still makes exactly one synthesis LLM
call; `Orchestrator.run` (core_v2) dispatches at least one network call
for a non-empty agent set, and whenever it returns normally its record
carries `processing_status = "success"` — empty input is processed like
any other. -/
theorem orchestrators_skip_input_validation
    (agents : List LocalAgent) (llm : String → AgentOutcome) (metadata : PaperMeta)
    (nagents : List NetAgent) (nllm : String → AgentOutcome)
    (hne : nagents ≠ []) :
    (process_paper agents llm "" metadata).1.processing_status = "success" ∧
    (process_paper agents llm "" metadata).2 = 1 ∧
    1 ≤ (orchRun nagents nllm "" false).2 ∧
    (∀ r n, orchRun nagents nllm "" false = (Except.ok r, n) →
      r.processing_status = "success") := by
  have hpos : 0 < (pyDict (nagents.map fun a => (a.name, agentRun a ""))).length := by
    refine pyDict_length_pos _ ?_
    cases nagents with
    | nil => exact absurd rfl hne
    | cons p t => simp
  refine ⟨rfl, ?_, ?_, ?_⟩
  · cases hl : llm (buildReviewPrompt (_run_agents agents "" metadata) metadata) <;>
      simp [process_paper, generateFinalReview, hl]
  · simp only [orchRun]
    split
    · exact hpos
    · split
      · omega
      · omega
  · intro r n h
    simp only [orchRun] at h
    split at h
    · injection h with h1 h2
      exact Except.noConfusion h1
    · split at h
      · injection h with h1 h2
        injection h1 with h1'
        subst h1'
        rfl
      · injection h with h1 h2
        exact Except.noConfusion h1

/-- C3 witness: the amended theorem applied at concrete orchestrators. -/
theorem orchestrators_skip_input_validation_witness :
    (process_paper [] llmOK "" meta0).1.processing_status = "success" ∧
    (process_paper [] llmOK "" meta0).2 = 1 ∧
    1 ≤ (orchRun [agOkA] llmOK "" false).2 ∧
    (∀ r n, orchRun [agOkA] llmOK "" false = (Except.ok r, n) →
      r.processing_status = "success") :=
  orchestrators_skip_input_validation [] llmOK meta0 [agOkA] llmOK
    (List.cons_ne_nil _ _)

/-! ## Claim C6 -/

theorem fallbackStructParts_all_error (agent_results : List (String × AgentDict))
    (hall : ∀ p ∈ agent_results, p.2.hasError = true) :
    fallbackStructParts agent_results = [] := by
  unfold fallbackStructParts
  cases hS : List.lookup "StructureAgent" agent_results with
  | none => rfl
  | some v =>
    cases v with
    | errorDict m => rfl
    | structDict sp =>
      have := hall _ (lookup_some_mem hS)
      simp [AgentDict.hasError] at this
    | sumDict mp => rfl

theorem fallbackSumParts_all_error (agent_results : List (String × AgentDict))
    (hall : ∀ p ∈ agent_results, p.2.hasError = true) :
    fallbackSumParts agent_results = [] := by
  unfold fallbackSumParts
  cases hS : List.lookup "SummaryAgent" agent_results with
  | none => rfl
  | some v =>
    cases v with
    | errorDict m => rfl
    | structDict sp => rfl
    | sumDict mp =>
      have := hall _ (lookup_some_mem hS)
      simp [AgentDict.hasError] at this

/-- C6 (corrected, counterexample): on an all-error results mapping the
synthesis step still makes its LLM call (call count 1, not 0) and, when
the backend answers, returns the backend's text rather than the fallback
template. -/
theorem synthesis_calls_llm_on_all_error :
    (generateFinalReview llmOK arsAllErr meta0).2 ≠ 0 ∧
    (generateFinalReview llmOK arsAllErr meta0).1 = "llm says" ∧
    ("llm says" : String) ≠ fallbackFixed := by
  refine ⟨by decide, rfl, by decide⟩

/-- C6 (corrected, amended): for every all-error results mapping,
`_generate_final_review` still makes exactly one LLM network call; the
deterministic, non-empty, clearly labeled fallback review (the fixed
header-plus-conclusions template) is returned only when that call
raises. -/
theorem synthesis_fallback_only_when_llm_fails
    (agent_results : List (String × AgentDict)) (metadata : PaperMeta)
    (llm : String → AgentOutcome)
    (hall : ∀ p ∈ agent_results, p.2.hasError = true) :
    (generateFinalReview llm agent_results metadata).2 = 1 ∧
    ((llm (buildReviewPrompt agent_results metadata)).isExnB = true →
      (generateFinalReview llm agent_results metadata).1 = fallbackFixed) ∧
    fallbackFixed ≠ "" := by
  have hfb : generateFallbackReview agent_results = fallbackFixed := by
    unfold generateFallbackReview fallbackFixed
    rw [fallbackStructParts_all_error agent_results hall,
      fallbackSumParts_all_error agent_results hall]
    rfl
  refine ⟨?_, ?_, by decide⟩
  · cases hl : llm (buildReviewPrompt agent_results metadata) <;>
      simp [generateFinalReview, hl]
  · intro hexn
    cases hl : llm (buildReviewPrompt agent_results metadata) with
    | ok t =>
      rw [hl] at hexn
      simp [AgentOutcome.isExnB] at hexn
    | exn m =>
      simp [generateFinalReview, hl, hfb]

/-- C6 witness: the amended theorem applied at the concrete all-error
mapping with a failing backend. -/
theorem synthesis_fallback_only_when_llm_fails_witness :
    (generateFinalReview llmDown arsAllErr meta0).2 = 1 ∧
    (generateFinalReview llmDown arsAllErr meta0).1 = fallbackFixed ∧
    fallbackFixed ≠ "" := by
  have h := synthesis_fallback_only_when_llm_fails arsAllErr meta0 llmDown (by decide)
  exact ⟨h.1, h.2.1 rfl, h.2.2⟩

/-! ## Claim C7 -/

/-- C7 (corrected, counterexample): when the refinement re-run raises,
`refine_agents` does NOT revert the prompt mutation — after the call, the
agent's prompt still carries the appended clarification note (there is no
`try/finally` around the gather). -/
theorem refine_mutation_persists_on_exception :
    (refineAgents [agBoomA] [("A", "note")] "t").1 = Except.error "boom" ∧
    (refineAgents [agBoomA] [("A", "note")] "t").2.map (·.prompt)
      = ["pa" ++ clarNote "note"] ∧
    ("pa" ++ clarNote "note" : String) ≠ "pa" := by
  refine ⟨rfl, rfl, by decide⟩

/-- C7 (corrected, amended): `CheckedOrchestrator.refine_agents` reverts
every agent's prompt to its exact pre-refinement value only on the
normal-completion path — when every registered agent's name is in the
clarification mapping, the names are distinct, and every re-run
completes.  When the re-run raises (or the mapping misses a registered
name), the mutation persists, as the counterexample shows. -/
theorem refine_restores_prompts_on_success (agents : List NetAgent)
    (clar : List (String × String)) (paper : String)
    (hnd : (agents.map (·.name)).Nodup)
    (hmem : ∀ a ∈ agents, (List.lookup a.name clar).isSome = true)
    (hok : ∀ a ∈ agents, (agentRun (mutatedOf clar a) paper).isOkB = true) :
    (refineAgents agents clar paper).2.map (fun a => (a.name, a.prompt))
      = agents.map (fun a => (a.name, a.prompt)) := by
  rw [refineAgents_success agents clar paper hnd hmem hok]

/-- C7 witness: the amended theorem applied at a concrete succeeding
refinement. -/
theorem refine_restores_prompts_on_success_witness :
    (refineAgents [agOkA] [("A", "note")] "t").2.map (fun a => (a.name, a.prompt))
      = ([agOkA] : List NetAgent).map (fun a => (a.name, a.prompt)) :=
  refine_restores_prompts_on_success [agOkA] [("A", "note")] "t"
    (by decide) (by decide) (by decide)

/-! ## Claim C8 -/

/-- C8 (corrected, counterexample): with two registered agents and a
clarification mapping naming only `A`, the claim predicts that only `A`
is re-run while `B` keeps its result.  Instead `refine_agents` appends
the note to the agents in registration order until it hits `B`, whose
missing key raises `KeyError`: the call raises, nobody is re-run, and
`A`'s prompt is left mutated. -/
theorem refine_raises_on_agent_not_in_mapping :
    (refineAgents [agOkA, agOkB] [("A", "m")] "t").1
      = Except.error ("KeyError: " ++ "B") ∧
    (refineAgents [agOkA, agOkB] [("A", "m")] "t").2.map (·.prompt)
      = ["pa" ++ clarNote "m", "pb"] :=
  ⟨rfl, rfl⟩

/-- C8 (corrected, amended): `CheckedOrchestrator.refine_agents` is not
selective: it appends the clarification note to EVERY registered agent
and re-runs ALL of them — when every agent's name is present in the
mapping (names distinct, re-runs completing) the returned mapping has one
re-run entry per registered agent, each computed with the note appended;
when some registered agent is missing from the mapping the call raises
`KeyError` instead of skipping that agent. -/
theorem refine_reruns_every_agent (agents : List NetAgent)
    (clar : List (String × String)) (paper : String)
    (hnd : (agents.map (·.name)).Nodup)
    (hmem : ∀ a ∈ agents, (List.lookup a.name clar).isSome = true)
    (hok : ∀ a ∈ agents, (agentRun (mutatedOf clar a) paper).isOkB = true) :
    (refineAgents agents clar paper).1 =
      Except.ok (agents.map fun a =>
        (a.name, (agentRun (mutatedOf clar a) paper).okD)) := by
  rw [refineAgents_success agents clar paper hnd hmem hok]

/-- C8 witness: the amended theorem applied with both agents named in the
mapping — both are re-run. -/
theorem refine_reruns_every_agent_witness :
    (refineAgents [agOkA, agOkB] [("A", "m1"), ("B", "m2")] "t").1 =
      Except.ok (([agOkA, agOkB] : List NetAgent).map fun a =>
        (a.name, (agentRun (mutatedOf [("A", "m1"), ("B", "m2")] a) "t").okD)) :=
  refine_reruns_every_agent [agOkA, agOkB] [("A", "m1"), ("B", "m2")] "t"
    (by decide) (by decide) (by decide)

end AgenteerReview
